import Mathlib

set_option maxRecDepth 8000

/-!
# mpcie_adio16_8f_dma: ring buffer producer and row logger

A shallow embedding of `worker_main` (the acquisition thread) and `log_main`
(the logging thread) of `apcilib/mpcie_adio16_8f_dma.c`, and of the counting
semaphore and the termination flag the two threads share.

Memory is addressed in units of one `uint16_t`: a memory is a function from
word index to word value.  `ring_buffer[r][w]` is word
`r * WORDS_PER_TRANSFER + w` of the ring memory, and the byte offset
`BYTES_PER_TRANSFER * k` into the mapped DMA region is word
`WORDS_PER_TRANSFER * k` of the device memory.
-/

namespace ApciDma

/-! ## Constants of the source -/

/-- Value of `#define SAMPLE_RATE 1000000.0`, in Hz. -/
def SAMPLE_RATE : Nat := 1000000

/-- Value of `#define SECONDS_TO_LOG 2.0`. -/
def SECONDS_TO_LOG : Nat := 2

/-- Value of `#define AMOUNT_OF_DATA_TO_LOG (SECONDS_TO_LOG * SAMPLE_RATE)`: the
product of the two doubles is the exact integer 2000000. -/
def AMOUNT_OF_DATA_TO_LOG : Nat := SECONDS_TO_LOG * SAMPLE_RATE

/-- Value of `#define HIGH_CHANNEL 7`. -/
def HIGH_CHANNEL : Nat := 7

/-- Value of `#define NUM_CHANNELS (HIGH_CHANNEL+1)`. -/
def NUM_CHANNELS : Nat := HIGH_CHANNEL + 1

/-- Value of `#define SAMPLES_PER_TRANSFER 0xF00`. -/
def SAMPLES_PER_TRANSFER : Nat := 0xF00

/-- Value of `#define BYTES_PER_SAMPLE 4`. -/
def BYTES_PER_SAMPLE : Nat := 4

/-- Value of `#define BYTES_PER_TRANSFER (SAMPLES_PER_TRANSFER * BYTES_PER_SAMPLE)`. -/
def BYTES_PER_TRANSFER : Nat := SAMPLES_PER_TRANSFER * BYTES_PER_SAMPLE

/-- Number of `uint16_t` words in one transfer: `BYTES_PER_TRANSFER / sizeof(uint16_t)`.
This is also the row length `SAMPLES_PER_TRANSFER * 2` of
`ring_buffer[RING_BUFFER_SLOTS][SAMPLES_PER_TRANSFER * 2]`. -/
def WORDS_PER_TRANSFER : Nat := BYTES_PER_TRANSFER / 2

/-- Value of `#define RING_BUFFER_SLOTS 4`. -/
def RING_BUFFER_SLOTS : Nat := 4

/-- Value of `#define NUMBER_OF_DMA_TRANSFERS
((__u32)(AMOUNT_OF_DATA_TO_LOG / SAMPLES_PER_TRANSFER))`.  The double quotient
2000000.0 / 3840 = 520.83... is far from an integer, so the conversion to
`__u32`, which drops the fraction, gives the quotient of the natural-number
division. -/
def NUMBER_OF_DMA_TRANSFERS : Nat := AMOUNT_OF_DATA_TO_LOG / SAMPLES_PER_TRANSFER

/-! ## Memory -/

/-- A memory of `uint16_t` words, by word index. -/
abbrev Mem := Nat → Nat

/-- The C library `memcpy (dst + d, src + s, n)`, in words: the `n` words of `src`
from word `s` on are written to `dst` from word `d` on. -/
def memcpy (dst : Mem) (d : Nat) (src : Mem) (s : Nat) (n : Nat) : Mem :=
  fun a => if d ≤ a ∧ a < d + n then src (s + (a - d)) else dst a

/-- The words of slot `j` of a memory laid out as an array of slots, by offset
in the slot: `mem[j][w]`. -/
def slotOf (mem : Mem) (j : Nat) : Nat → Nat :=
  fun w => mem (j * WORDS_PER_TRANSFER + w)

/-- The copy of `worker_main` (lines 199-214): one `memcpy` when the `num_slots` slots
from `first_slot` on end at or before the last ring slot, else one `memcpy` up to the
end of the ring and a second one from ring slot 0 on. -/
def worker_copy (ring dev : Mem) (first_slot num_slots : Nat) : Mem :=
  if first_slot + num_slots ≤ RING_BUFFER_SLOTS then
    memcpy ring (first_slot * WORDS_PER_TRANSFER) dev (WORDS_PER_TRANSFER * first_slot)
      (WORDS_PER_TRANSFER * num_slots)
  else
    memcpy
      (memcpy ring (first_slot * WORDS_PER_TRANSFER) dev (WORDS_PER_TRANSFER * first_slot)
        (WORDS_PER_TRANSFER * (RING_BUFFER_SLOTS - first_slot)))
      0 dev 0
      (WORDS_PER_TRANSFER * (num_slots - (RING_BUFFER_SLOTS - first_slot)))

/-! ## The logging thread: row assembly (`log_main`, lines 97-139) -/

/-- The value an `int16_t` takes when a 16-bit word is stored in it (two's
complement), as in `counts[channel] = ring_buffer[...][...]`. -/
def toInt16 (w : Nat) : Int :=
  if w % 65536 < 32768 then ((w % 65536 : Nat) : Int) else ((w % 65536 : Nat) : Int) - 65536

/-- The channel number of a conversion result, read out of its status word:
`(status >> 4) & 0x7` (line 120). -/
def channelOf (status : Nat) : Nat := (status >>> 4) &&& 0x7

/-- The local variables of `log_main` and the rows written to the log file so far.
`counts` is the memory at `counts[0]`, `counts[1]`, ...: the array
`int16_t counts[NUM_CHANNELS]` is the cells `0 .. NUM_CHANNELS - 1`, and a cell of
index `NUM_CHANNELS` or more lies beyond the end of the array.  A row of `out` is the
printed row number and the `NUM_CHANNELS` printed values.  (`last_channel` and
`status` are written and never read; they are left out.) -/
structure LogState where
  ring_read_index : Nat
  row : Nat
  counts : Nat → Int
  out : List (Nat × List Int)

/-- The assignment `counts[j] = v`. -/
def store (counts : Nat → Int) (j : Nat) (v : Int) : Nat → Int :=
  fun i => if i = j then v else counts i

/-- The body of the sample loop (lines 120-136) for the pair `(value, status)`
read from `ring_buffer[ring_read_index][i * 2]` and `[i * 2 + 1]`.  On channel 0 the
row number and `counts[0 .. NUM_CHANNELS - 1]` are printed, `row` is incremented and
`memset` clears the `sizeof(counts)` bytes of the array; then `counts[channel]`
takes the value word and `counts[channel + 1]` the status word.  For a sample of
channel `HIGH_CHANNEL` the second store goes to `counts[NUM_CHANNELS]`, outside the
array, where C leaves the behaviour undefined.  This function puts it in cell
`NUM_CHANNELS`, which nothing reads: it takes the store to leave the other locals of
`log_main` as they are.  `log_sample_checked` is the body without that assumption. -/
def log_sample (value status : Nat) (lg : LogState) : LogState :=
  let channel := channelOf status
  let lg1 : LogState :=
    if channel = 0 then
      { lg with
        out := lg.out ++ [(lg.row, (List.range NUM_CHANNELS).map lg.counts)],
        row := lg.row + 1,
        counts := fun j => if j < NUM_CHANNELS then 0 else lg.counts j }
    else lg
  { lg1 with
    counts := store (store lg1.counts channel (toInt16 value)) (channel + 1) (toInt16 status) }

/-- The sample loop over a sequence of `(value, status)` pairs, in order. -/
def log_samples (l : List (Nat × Nat)) (lg : LogState) : LogState :=
  l.foldl (fun lg p => log_sample p.1 p.2 lg) lg

/-- The pairs `(slot[i * 2], slot[i * 2 + 1])` for `i = 0 .. SAMPLES_PER_TRANSFER - 1`
that the loop of line 118 reads from one ring slot. -/
def slotSamples (slot : Nat → Nat) : List (Nat × Nat) :=
  (List.range SAMPLES_PER_TRANSFER).map (fun i => (slot (i * 2), slot (i * 2 + 1)))

/-- The loop of lines 118-137 over one ring slot. -/
def log_slot (slot : Nat → Nat) (lg : LogState) : LogState :=
  log_samples (slotSamples slot) lg

/-- One pass of the body of the `while` loop after the wait (lines 118-139): the slot
`ring_buffer[ring_read_index]` is processed, then `ring_read_index++` and
`ring_read_index %= RING_BUFFER_SLOTS`. -/
def log_drain (ring : Mem) (lg : LogState) : LogState :=
  let lg1 := log_slot (slotOf ring lg.ring_read_index) lg
  { lg1 with ring_read_index := (lg1.ring_read_index + 1) % RING_BUFFER_SLOTS }

/-- Lines 120-134: the body of the sample loop up to and including the store of the
value word in `counts[channel]`, which is always inside the array; the store of
line 135 is not made. -/
def log_sample_value (value status : Nat) (lg : LogState) : LogState :=
  let channel := channelOf status
  let lg1 : LogState :=
    if channel = 0 then
      { lg with
        out := lg.out ++ [(lg.row, (List.range NUM_CHANNELS).map lg.counts)],
        row := lg.row + 1,
        counts := fun j => if j < NUM_CHANNELS then 0 else lg.counts j }
    else lg
  { lg1 with counts := store lg1.counts channel (toInt16 value) }

/-- The body of the sample loop as far as C defines it: the store of line 135 to
`counts[channel + 1]` is inside `int16_t counts[NUM_CHANNELS]` when
`channel + 1 < NUM_CHANNELS`, and the result is that of `log_sample`; otherwise the
store is out of bounds, the behaviour is undefined and there is no result. -/
def log_sample_checked (value status : Nat) (lg : LogState) : Option LogState :=
  if channelOf status + 1 < NUM_CHANNELS then some (log_sample value status lg) else none

/-- The sample loop over a sequence of pairs as far as C defines it: no result from the
first out-of-bounds store on. -/
def log_samples_checked : List (Nat × Nat) → LogState → Option LogState
  | [], lg => some lg
  | p :: l, lg => (log_sample_checked p.1 p.2 lg).bind (log_samples_checked l)

/-- The loop of lines 118-137 over one ring slot as far as C defines it. -/
def log_slot_checked (slot : Nat → Nat) (lg : LogState) : Option LogState :=
  log_samples_checked (slotSamples slot) lg

/-- The locals of `log_main` on entry to its loop: `ring_read_index = 0`, `row = 0`,
nothing printed but the header, and `counts` not initialised: it holds whatever
`counts0` the stack held. -/
def initLog (counts0 : Nat → Int) : LogState :=
  { ring_read_index := 0, row := 0, counts := counts0, out := [] }

/-- A slot whose samples cycle through the channels `0 .. HIGH_CHANNEL` in clean
cycles of `NUM_CHANNELS` samples: sample `i` carries channel `i % NUM_CHANNELS`. -/
def CleanSlot (slot : Nat → Nat) : Prop :=
  ∀ i, i < SAMPLES_PER_TRANSFER → channelOf (slot (i * 2 + 1)) = i % NUM_CHANNELS

/-- A ring memory all of whose slots cycle through the channels `0 .. 7`: the status
word of sample `i` of a slot is `(i % 8) * 16`. -/
def cleanRing : Mem :=
  fun a => if a % 2 = 1 then (a % 7680 / 2 % 8) * 16 else a % 65536

/-! ## The two threads and what they share -/

/-- Why the `do ... while` loop of `worker_main` was left: the `break` of the overrun
check (line 229), the `break` after a failed interrupt wait (line 190), or the loop
condition becoming false (line 233). -/
inductive Exit where
  | overrun
  | irqError
  | complete
  deriving DecidableEq, Repr

/-- Where `worker_main` stands: at the top of its loop, in the `sem_post` loop of
line 221 with `i` posts done out of `num_slots`, or past the loop (line 235 done). -/
inductive WorkerPc where
  | ready
  | posting (num_slots i : Nat)
  | exited (why : Exit)
  deriving DecidableEq, Repr

/-- Where `log_main` stands: at the test of the `while` (line 113), blocked in
`sem_wait` (line 115), past the wait and the test of line 116 with a slot to
process, or at `endlog`. -/
inductive LoggerPc where
  | loopTest
  | waiting
  | holding
  | exited
  deriving DecidableEq, Repr

/-- A record of the slots copied and drained so far, kept beside the program state to
state properties of a run; the program never reads it.  `copiedData k` is the device
slot from which the `k`-th copied slot was taken, `drainedIndex k` the ring index at
which the `k`-th drained slot was read and `drainedData k` the ring slot as it was
read. -/
structure History where
  copied : Nat
  copiedData : Nat → Nat → Nat
  drained : Nat
  drainedIndex : Nat → Nat
  drainedData : Nat → Nat → Nat

/-- The state shared by the two threads (`ring_buffer`, the count of `ring_sem`,
`terminate`), the locals of `worker_main` and `log_main`, and the history. -/
structure State where
  ring : Mem
  sem : Nat
  terminate : Bool
  transfer_count : Nat
  worker : WorkerPc
  logger : LoggerPc
  log : LogState
  hist : History

/-- The atomic actions of a run.
* `poll dev first_slot num_slots irq`: `worker_main` at the top of its loop;
  `apci_dma_data_ready` returns `first_slot` and `num_slots` with the mapped device
  memory holding `dev`, and `apci_wait_for_irq`, if it is called, returns `irq`
  (lines 176-219); `data_discarded` is only printed, and `apci_dma_data_done` acts on
  the device only, so neither appears;
* `post`: one `sem_post` of the loop of line 221;
* `check`: `sem_getvalue`, the overrun test, the update of `transfer_count` and the
  loop condition (lines 226-233), with line 235 when the loop is left;
* `loopTest`: the test of the `while` of `log_main` (line 113);
* `wake`: `sem_wait` returns and `terminate` is tested (lines 115-116);
* `drain`: lines 118-139;
* `abort`: `abort_handler` sets `terminate` (line 86);
* `release`: `main` sets `terminate` and posts the semaphore (lines 347-348). -/
inductive Event where
  | poll (dev : Mem) (first_slot num_slots : Nat) (irq : Int)
  | post
  | check
  | loopTest
  | wake
  | drain
  | abort
  | release

/-- The loop condition `transfer_count < NUMBER_OF_DMA_TRANSFERS` of line 233, reached
at the end of the body and by `continue`; when it is false the loop is left and
line 235 sets `terminate`. -/
def loopCond (s : State) : State :=
  if s.transfer_count < NUMBER_OF_DMA_TRANSFERS then { s with worker := .ready }
  else { s with worker := .exited .complete, terminate := true }

/-- The history after `num_slots` slots were copied from device slots
`first_slot`, `first_slot + 1`, ... (modulo the ring capacity). -/
def History.copy (h : History) (dev : Mem) (first_slot num_slots : Nat) : History :=
  { h with
    copied := h.copied + num_slots,
    copiedData := fun k =>
      if h.copied ≤ k ∧ k < h.copied + num_slots then
        slotOf dev ((first_slot + (k - h.copied)) % RING_BUFFER_SLOTS)
      else h.copiedData k }

/-- The history after the ring slot `index` was drained from ring memory `ring`. -/
def History.drain (h : History) (ring : Mem) (index : Nat) : History :=
  { h with
    drained := h.drained + 1,
    drainedIndex := fun k => if k = h.drained then index else h.drainedIndex k,
    drainedData := fun k => if k = h.drained then slotOf ring index else h.drainedData k }

/-- One atomic action.  An action of a thread that does not stand where the action
starts leaves the state as it is, and so does `wake` while the semaphore count is 0
(`sem_wait` blocks). -/
def step (s : State) : Event → State
  | .poll dev first_slot num_slots irq =>
    match s.worker with
    | .ready =>
      if num_slots = 0 then
        if irq ≠ 0 then { s with worker := .exited .irqError, terminate := true }
        else loopCond s
      else
        { s with
          ring := worker_copy s.ring dev first_slot num_slots,
          worker := .posting num_slots 0,
          hist := s.hist.copy dev first_slot num_slots }
    | _ => s
  | .post =>
    match s.worker with
    | .posting n i => if i < n then { s with sem := s.sem + 1, worker := .posting n (i + 1) } else s
    | _ => s
  | .check =>
    match s.worker with
    | .posting n i =>
      if i < n then s
      else if RING_BUFFER_SLOTS ≤ s.sem then
        { s with worker := .exited .overrun, terminate := true }
      else loopCond { s with transfer_count := s.transfer_count + n }
    | _ => s
  | .loopTest =>
    match s.logger with
    | .loopTest => if s.terminate then { s with logger := .exited } else { s with logger := .waiting }
    | _ => s
  | .wake =>
    match s.logger with
    | .waiting =>
      if s.sem = 0 then s
      else if s.terminate then { s with sem := s.sem - 1, logger := .exited }
      else { s with sem := s.sem - 1, logger := .holding }
    | _ => s
  | .drain =>
    match s.logger with
    | .holding =>
      { s with
        log := log_drain s.ring s.log,
        logger := .loopTest,
        hist := s.hist.drain s.ring s.log.ring_read_index }
    | _ => s
  | .abort => { s with terminate := true }
  | .release => { s with terminate := true, sem := s.sem + 1 }

/-- The state after a sequence of actions. -/
def run (s : State) (evs : List Event) : State := evs.foldl step s

/-- The state when both threads are about to enter their loops: `ring_buffer` is a
zeroed static array, `sem_init` gave the semaphore the count 0, `terminate` is 0 and
`transfer_count` is 0. -/
def init (counts0 : Nat → Int) : State :=
  { ring := fun _ => 0, sem := 0, terminate := false, transfer_count := 0,
    worker := .ready, logger := .loopTest, log := initLog counts0,
    hist := { copied := 0, copiedData := fun _ _ => 0, drained := 0,
              drainedIndex := fun _ => 0, drainedData := fun _ _ => 0 } }

/-- The number of slots copied into the ring and not yet drained. -/
def undrained (s : State) : Nat := s.hist.copied - s.hist.drained

/-- What the device is taken to do at a `poll` that finds data: it hands out at most
`RING_BUFFER_SLOTS` slots, starting at the slot after the last one it handed out
(slot 0 at first). -/
def pollOk (s : State) : Event → Prop
  | .poll _ first_slot num_slots _ =>
    s.worker = .ready → num_slots ≠ 0 →
      first_slot = s.hist.copied % RING_BUFFER_SLOTS ∧ num_slots ≤ RING_BUFFER_SLOTS
  | _ => True

/-- Every `poll` of the run from `s` satisfies `pollOk`. -/
def Consecutive : State → List Event → Prop
  | _, [] => True
  | s, e :: es => pollOk s e ∧ Consecutive (step s e) es

/-- In every state of the run from `s`, fewer than `RING_BUFFER_SLOTS` slots are
copied and not yet drained. -/
def NoOverrun : State → List Event → Prop
  | s, [] => undrained s < RING_BUFFER_SLOTS
  | s, e :: es => undrained s < RING_BUFFER_SLOTS ∧ NoOverrun (step s e) es

instance pollOkDecidable (s : State) (e : Event) : Decidable (pollOk s e) := by
  cases e <;> unfold pollOk <;> infer_instance

instance consecutiveDecidable :
    (s : State) → (evs : List Event) → Decidable (Consecutive s evs)
  | _, [] => isTrue trivial
  | s, e :: es =>
    have := consecutiveDecidable (step s e) es
    inferInstanceAs (Decidable (pollOk s e ∧ Consecutive (step s e) es))

instance noOverrunDecidable :
    (s : State) → (evs : List Event) → Decidable (NoOverrun s evs)
  | s, [] => inferInstanceAs (Decidable (undrained s < RING_BUFFER_SLOTS))
  | s, e :: es =>
    have := noOverrunDecidable (step s e) es
    inferInstanceAs (Decidable (undrained s < RING_BUFFER_SLOTS ∧ NoOverrun (step s e) es))

/-- A device memory: word `a` holds `a mod 65536`. -/
def devA : Mem := fun a => a % 65536

/-- A run in which the logging thread blocks in `sem_wait`, one slot is delivered and
posted, and the next interrupt wait of `worker_main` fails. -/
def irqFailure : List Event :=
  [.loopTest, .poll devA 0 1 0, .post, .check, .poll devA 0 0 (-1)]

/-- The actions of one delivery of one slot, at device slot `k mod RING_BUFFER_SLOTS`,
posted, checked, and drained by the logging thread. -/
def oneSlotRound (k : Nat) : List Event :=
  [.poll devA (k % RING_BUFFER_SLOTS) 1 0, .post, .check, .loopTest, .wake, .drain]

/-- The run of the first `n` rounds of one slot per delivery. -/
def oneSlotRun : Nat → List Event
  | 0 => []
  | n + 1 => oneSlotRun n ++ oneSlotRound n

/-- Both threads at the top of their loops with nothing queued, after `k` slots. -/
def Steady (k : Nat) (s : State) : Prop :=
  s.worker = .ready ∧ s.logger = .loopTest ∧ s.sem = 0 ∧ s.terminate = false ∧
    s.transfer_count = k

/-- One iteration of the loop of `worker_main` for a delivery of `num_slots` slots:
the poll with the copy, `num_slots` posts, and the check. -/
def iteration (d : Mem × Nat × Nat) : List Event :=
  [Event.poll d.1 d.2.1 d.2.2 0] ++ List.replicate d.2.2 Event.post ++ [Event.check]

/-- The iterations of `worker_main` for the first `n` deliveries of a stream, with no
action of the logging thread in between. -/
def deliveries (ds : Nat → Mem × Nat × Nat) : Nat → List Event
  | 0 => []
  | n + 1 => deliveries ds n ++ iteration (ds n)

/-- The number of slots handed out by the first `n` deliveries of a stream. -/
def delivered (ds : Nat → Mem × Nat × Nat) : Nat → Nat
  | 0 => 0
  | n + 1 => delivered ds n + (ds n).2.2

/-- An action of `worker_main`. -/
def Event.isWorker : Event → Bool
  | .poll _ _ _ _ => true
  | .post => true
  | .check => true
  | _ => false

/-! ## Theorems -/

theorem words_per_transfer_eq : WORDS_PER_TRANSFER = 7680 := by decide

/-- The slots written by `worker_copy` hold the device words. -/
theorem worker_copy_written (ring dev : Mem) (first_slot num_slots : Nat)
    (hf : first_slot < RING_BUFFER_SLOTS) (hn : num_slots ≤ RING_BUFFER_SLOTS)
    (k : Nat) (hk : k < num_slots) (w : Nat) (hw : w < WORDS_PER_TRANSFER) :
    slotOf (worker_copy ring dev first_slot num_slots)
        ((first_slot + k) % RING_BUFFER_SLOTS) w
      = slotOf dev ((first_slot + k) % RING_BUFFER_SLOTS) w := by
  simp only [RING_BUFFER_SLOTS, words_per_transfer_eq] at *
  unfold worker_copy
  simp only [RING_BUFFER_SLOTS, words_per_transfer_eq]
  split_ifs <;> simp only [slotOf, memcpy, words_per_transfer_eq] <;>
    split_ifs <;> first | rfl | (congr 1; omega)

/-- The slots not written by `worker_copy` keep their words. -/
theorem worker_copy_other (ring dev : Mem) (first_slot num_slots : Nat)
    (hf : first_slot < RING_BUFFER_SLOTS) (hn : num_slots ≤ RING_BUFFER_SLOTS)
    (j : Nat) (hj : ∀ k, k < num_slots → j ≠ (first_slot + k) % RING_BUFFER_SLOTS)
    (w : Nat) (hw : w < WORDS_PER_TRANSFER) :
    slotOf (worker_copy ring dev first_slot num_slots) j w = slotOf ring j w := by
  have h0 := hj 0
  have h1 := hj 1
  have h2 := hj 2
  have h3 := hj 3
  simp only [RING_BUFFER_SLOTS, words_per_transfer_eq] at *
  unfold worker_copy
  simp only [RING_BUFFER_SLOTS, words_per_transfer_eq]
  split_ifs <;> simp only [slotOf, memcpy, words_per_transfer_eq] <;>
    split_ifs <;> first | rfl | omega

/-- C1: for `first_slot` in `[0, RING_BUFFER_SLOTS)` and `num_slots` in
`[1, RING_BUFFER_SLOTS]`, after the copy of `worker_main` the ring slot
`(first_slot + k) mod RING_BUFFER_SLOTS` equals the device slot of the same index for
every `k < num_slots`, every other slot is unchanged, and the `k`-th delivered slot
holds what a delivery of the same samples from slot 0 on, which does not wrap, gives
its `k`-th slot. -/
theorem worker_copy_correct (ring dev : Mem) (first_slot num_slots : Nat)
    (hf : first_slot < RING_BUFFER_SLOTS) (h1 : 1 ≤ num_slots)
    (hn : num_slots ≤ RING_BUFFER_SLOTS) :
    (∀ k, k < num_slots → ∀ w, w < WORDS_PER_TRANSFER →
      slotOf (worker_copy ring dev first_slot num_slots)
          ((first_slot + k) % RING_BUFFER_SLOTS) w
        = slotOf dev ((first_slot + k) % RING_BUFFER_SLOTS) w) ∧
    (∀ j, (∀ k, k < num_slots → j ≠ (first_slot + k) % RING_BUFFER_SLOTS) →
      ∀ w, w < WORDS_PER_TRANSFER →
        slotOf (worker_copy ring dev first_slot num_slots) j w = slotOf ring j w) ∧
    (∀ (ring0 dev0 : Mem),
      (∀ k, k < num_slots → ∀ w, w < WORDS_PER_TRANSFER →
        slotOf dev0 k w = slotOf dev ((first_slot + k) % RING_BUFFER_SLOTS) w) →
      0 + num_slots ≤ RING_BUFFER_SLOTS ∧
      ∀ k, k < num_slots → ∀ w, w < WORDS_PER_TRANSFER →
        slotOf (worker_copy ring dev first_slot num_slots)
            ((first_slot + k) % RING_BUFFER_SLOTS) w
          = slotOf (worker_copy ring0 dev0 0 num_slots) k w) := by
  refine ⟨fun k hk w hw => worker_copy_written ring dev first_slot num_slots hf hn k hk w hw,
    fun j hj w hw => worker_copy_other ring dev first_slot num_slots hf hn j hj w hw, ?_⟩
  intro ring0 dev0 hsame
  refine ⟨by omega, fun k hk w hw => ?_⟩
  rw [worker_copy_written ring dev first_slot num_slots hf hn k hk w hw]
  have h0 := worker_copy_written ring0 dev0 0 num_slots (by decide) hn k hk w hw
  have hk4 : (0 + k) % RING_BUFFER_SLOTS = k := by
    simp only [RING_BUFFER_SLOTS] at *
    omega
  rw [hk4] at h0
  rw [h0, hsame k hk w hw]

/-- A wrapping delivery at which `worker_copy_correct` applies: two slots from slot 3
on. -/
theorem worker_copy_correct_witness :
    (3 < RING_BUFFER_SLOTS ∧ 1 ≤ 2 ∧ 2 ≤ RING_BUFFER_SLOTS ∧ RING_BUFFER_SLOTS < 3 + 2) ∧
    (∀ k, k < 2 → ∀ w, w < WORDS_PER_TRANSFER →
      slotOf (worker_copy (fun _ => 0) (fun a => a % 65536) 3 2)
          ((3 + k) % RING_BUFFER_SLOTS) w
        = slotOf (fun a => a % 65536) ((3 + k) % RING_BUFFER_SLOTS) w) :=
  ⟨by decide,
    (worker_copy_correct (fun _ => 0) (fun a => a % 65536) 3 2
      (by decide) (by decide) (by decide)).1⟩

/-! ### Row assembly -/

theorem channelOf_eq (status : Nat) : channelOf status = status / 16 % 8 := by
  unfold channelOf
  rw [Nat.shiftRight_eq_div_pow]
  exact Nat.and_pow_two_sub_one_eq_mod (status / 2 ^ 4) 3

theorem channelOf_le (status : Nat) : channelOf status ≤ HIGH_CHANNEL := by
  rw [channelOf_eq]
  simp only [HIGH_CHANNEL]
  omega

theorem log_samples_nil (lg : LogState) : log_samples [] lg = lg := rfl

theorem log_samples_cons (p : Nat × Nat) (l : List (Nat × Nat)) (lg : LogState) :
    log_samples (p :: l) lg = log_samples l (log_sample p.1 p.2 lg) := rfl

theorem log_samples_append (l1 l2 : List (Nat × Nat)) (lg : LogState) :
    log_samples (l1 ++ l2) lg = log_samples l2 (log_samples l1 lg) := by
  simp [log_samples, List.foldl_append]

theorem log_sample_row (value status : Nat) (lg : LogState) :
    (log_sample value status lg).row
      = lg.row + (if channelOf status = 0 then 1 else 0) := by
  unfold log_sample
  by_cases h : channelOf status = 0 <;> simp [h]

theorem log_sample_out (value status : Nat) (lg : LogState) :
    (log_sample value status lg).out
      = lg.out ++ (if channelOf status = 0 then
          [(lg.row, (List.range NUM_CHANNELS).map lg.counts)] else []) := by
  unfold log_sample
  by_cases h : channelOf status = 0 <;> simp [h]

theorem cleanRing_clean (j : Nat) : CleanSlot (slotOf cleanRing j) := by
  intro i hi
  have hodd : (j * 7680 + (i * 2 + 1)) % 2 = 1 := by omega
  simp only [slotOf, words_per_transfer_eq, cleanRing, hodd, if_true, channelOf_eq,
    NUM_CHANNELS, HIGH_CHANNEL]
  simp only [SAMPLES_PER_TRANSFER] at hi
  omega

/-- The body of the sample loop is the part up to line 134 followed by the store of
line 135. -/
theorem log_sample_after_value (value status : Nat) (lg : LogState) :
    log_sample value status lg
      = { log_sample_value value status lg with
          counts := store (log_sample_value value status lg).counts
            (channelOf status + 1) (toInt16 status) } := rfl

/-- A sample of channel `HIGH_CHANNEL` makes the out-of-bounds store. -/
theorem log_samples_checked_none (l : List (Nat × Nat)) (lg : LogState) (p : Nat × Nat)
    (hp : p ∈ l) (h7 : channelOf p.2 = HIGH_CHANNEL) : log_samples_checked l lg = none := by
  induction l generalizing lg with
  | nil => simp at hp
  | cons q l ih =>
    simp only [log_samples_checked]
    rcases List.mem_cons.mp hp with hq | hq
    · subst hq
      simp [log_sample_checked, h7, NUM_CHANNELS]
    · cases log_sample_checked q.1 q.2 lg with
      | none => rfl
      | some lg1 => simpa using ih lg1 hq

/-- Every clean slot runs into the out-of-bounds store, at its eighth sample. -/
theorem log_slot_checked_clean (slot : Nat → Nat) (hclean : CleanSlot slot) (lg : LogState) :
    log_slot_checked slot lg = none := by
  apply log_samples_checked_none (slotSamples slot) lg (slot (7 * 2), slot (7 * 2 + 1))
  · simp only [slotSamples, List.mem_map, List.mem_range]
    exact ⟨7, by decide, rfl⟩
  · rw [hclean 7 (by decide)]
    rfl

/-- C6 at a failing input: one clean slot, `N = 1`.  Its first sample emits row 0
from the accumulator `log_main` never initialised, so the row holds no channel value;
its eighth sample is of channel `HIGH_CHANNEL` and stores to `counts[NUM_CHANNELS]`,
outside the array, so that the processing of the slot has no defined result; and so
it is for every clean slot. -/
theorem log_clean_slot_undefined :
    CleanSlot (slotOf cleanRing 0) ∧
    (∀ counts0 : Nat → Int,
      (log_sample (slotOf cleanRing 0 0) (slotOf cleanRing 0 1) (initLog counts0)).out
        = [(0, (List.range NUM_CHANNELS).map counts0)]) ∧
    channelOf (slotOf cleanRing 0 (7 * 2 + 1)) = HIGH_CHANNEL ∧
    (∀ (value : Nat) (lg : LogState),
      (log_sample value (slotOf cleanRing 0 (7 * 2 + 1)) lg).counts NUM_CHANNELS
        = toInt16 (slotOf cleanRing 0 (7 * 2 + 1))) ∧
    (∀ lg, log_slot_checked (slotOf cleanRing 0) lg = none) ∧
    (∀ slot, CleanSlot slot → ∀ lg, log_slot_checked slot lg = none) := by
  have e1 : slotOf cleanRing 0 1 = 0 := by decide
  have e15 : slotOf cleanRing 0 (7 * 2 + 1) = 112 := by decide
  have c0 : channelOf 0 = 0 := by decide
  have c7 : channelOf 112 = 7 := by decide
  refine ⟨cleanRing_clean 0, ?_, ?_, ?_, fun lg => log_slot_checked_clean _ (cleanRing_clean 0) lg,
    log_slot_checked_clean⟩
  · intro counts0
    simp [log_sample_out, e1, c0, initLog]
  · rw [e15, c7]
    rfl
  · intro value lg
    rw [e15]
    simp [log_sample, c7, store, NUM_CHANNELS, HIGH_CHANNEL]

/-- C7 at a failing input: the samples (100, channel 0), (200, channel 1),
(300, channel 0).  The row emitted at the second channel-0 sample holds in column 2
the value 16, the status word `0x10` of the channel-1 sample, although no sample of
channel 2 was seen since the previous emission. -/
theorem log_row_holds_status_word (counts0 : Nat → Int) :
    (log_samples [(100, 0x00), (200, 0x10), (300, 0x00)] (initLog counts0)).out
      = [(0, (List.range NUM_CHANNELS).map counts0), (1, [100, 200, 16, 0, 0, 0, 0, 0])] := by
  have e0 : channelOf 0 = 0 := by decide
  have e1 : channelOf 16 = 1 := by decide
  have hr : List.range 8 = [0, 1, 2, 3, 4, 5, 6, 7] := by decide
  simp [log_samples_cons, log_samples_nil, log_sample_out, log_sample_row, log_sample, initLog,
    e0, e1, toInt16, NUM_CHANNELS, HIGH_CHANNEL, hr, store]

/-- C8 at a failing input: every status word gives a channel id in `[0, HIGH_CHANNEL]`,
but for the status word `0x70`, of channel `HIGH_CHANNEL`, the store to
`counts[channel + 1]` writes the cell of index `NUM_CHANNELS`, one past the last
element of `counts[NUM_CHANNELS]`. -/
theorem log_sample_writes_past_counts :
    (∀ status, channelOf status ≤ HIGH_CHANNEL) ∧
    channelOf 0x70 = HIGH_CHANNEL ∧
    ∀ (value : Nat) (lg : LogState),
      (log_sample value 0x70 lg).counts NUM_CHANNELS = 0x70 := by
  refine ⟨channelOf_le, by decide, ?_⟩
  intro value lg
  have e7 : channelOf 0x70 = 7 := by decide
  simp [log_sample, e7, store, toInt16, NUM_CHANNELS, HIGH_CHANNEL]

/-! ### The run of the two threads -/

theorem run_nil (s : State) : run s [] = s := rfl

theorem run_cons (s : State) (e : Event) (es : List Event) :
    run s (e :: es) = run (step s e) es := rfl

theorem run_append (s : State) (l1 l2 : List Event) :
    run s (l1 ++ l2) = run (run s l1) l2 := by
  simp [run, List.foldl_append]

theorem step_poll_data (s : State) (dev : Mem) (first_slot num_slots : Nat) (irq : Int)
    (hw : s.worker = .ready) (hn : num_slots ≠ 0) :
    step s (.poll dev first_slot num_slots irq)
      = { s with
          ring := worker_copy s.ring dev first_slot num_slots,
          worker := .posting num_slots 0,
          hist := s.hist.copy dev first_slot num_slots } := by
  simp only [step, hw, hn, if_false]

/-- Once `log_main` has reached `endlog`, no action drains a slot or prints a row. -/
theorem step_logger_exited (s : State) (e : Event) (h : s.logger = .exited) :
    (step s e).logger = .exited ∧ (step s e).hist.drained = s.hist.drained ∧
      (step s e).log = s.log := by
  cases e with
  | poll dev first_slot num_slots irq =>
    simp only [step, loopCond]
    split <;> [split_ifs <;> exact ⟨h, rfl, rfl⟩; exact ⟨h, rfl, rfl⟩]
  | post =>
    simp only [step]
    split <;> [split_ifs <;> exact ⟨h, rfl, rfl⟩; exact ⟨h, rfl, rfl⟩]
  | check =>
    simp only [step, loopCond]
    split <;> [split_ifs <;> exact ⟨h, rfl, rfl⟩; exact ⟨h, rfl, rfl⟩]
  | loopTest => simp [step, h]
  | wake => simp [step, h]
  | drain => simp [step, h]
  | abort => exact ⟨h, rfl, rfl⟩
  | release => exact ⟨h, rfl, rfl⟩

theorem run_logger_exited (s : State) (evs : List Event) (h : s.logger = .exited) :
    (run s evs).logger = .exited ∧ (run s evs).hist.drained = s.hist.drained ∧
      (run s evs).log = s.log := by
  induction evs generalizing s with
  | nil => exact ⟨h, rfl, rfl⟩
  | cons e es ih =>
    obtain ⟨h1, h2, h3⟩ := step_logger_exited s e h
    obtain ⟨h4, h5, h6⟩ := ih (step s e) h1
    rw [run_cons]
    exact ⟨h4, h5.trans h2, h6.trans h3⟩

/-- C9 at a failing input: in the run `irqFailure` one slot is posted, then
`worker_main` leaves its loop on a failed interrupt wait and sets `terminate`, while
`log_main` is blocked in `sem_wait` with the slot pending.  When `log_main` wakes it
takes the post and goes to `endlog`: the slot is never drained and no row is
printed. -/
theorem logger_leaves_posted_slot :
    (run (init (fun _ => 0)) irqFailure).terminate = true ∧
    (run (init (fun _ => 0)) irqFailure).worker = .exited .irqError ∧
    (run (init (fun _ => 0)) irqFailure).logger = .waiting ∧
    (run (init (fun _ => 0)) irqFailure).sem = 1 ∧
    undrained (run (init (fun _ => 0)) irqFailure) = 1 ∧
    (step (run (init (fun _ => 0)) irqFailure) .wake).logger = .exited ∧
    (step (run (init (fun _ => 0)) irqFailure) .wake).sem = 0 ∧
    ∀ evs, (run (step (run (init (fun _ => 0)) irqFailure) .wake) evs).hist.drained = 0 ∧
      (run (step (run (init (fun _ => 0)) irqFailure) .wake) evs).log.out = [] := by
  refine ⟨by decide, by decide, by decide, by decide, by decide, by decide, by decide, ?_⟩
  intro evs
  have h := run_logger_exited (step (run (init (fun _ => 0)) irqFailure) .wake) evs (by decide)
  rw [h.2.1, h.2.2]
  exact ⟨by decide, by decide⟩

theorem number_of_dma_transfers_eq : NUMBER_OF_DMA_TRANSFERS = 520 := by decide

/-- The `sem_post` loop: `k` posts raise the semaphore count by `k`. -/
theorem run_posts (k : Nat) (s : State) (n i : Nat) (hw : s.worker = .posting n i)
    (hk : i + k ≤ n) :
    run s (List.replicate k Event.post)
      = { s with sem := s.sem + k, worker := .posting n (i + k) } := by
  induction k generalizing s i with
  | zero =>
    cases s
    simp only at hw
    simp [run_nil, hw]
  | succ k ih =>
    have hlt : i < n := by omega
    rw [List.replicate_succ, run_cons]
    have hs : step s .post = { s with sem := s.sem + 1, worker := .posting n (i + 1) } := by
      simp only [step, hw, hlt, if_true]
    rw [hs, ih _ (i + 1) rfl (by omega)]
    simp only [State.mk.injEq, WorkerPc.posting.injEq, true_and, and_true]
    constructor <;> omega

/-- One iteration of `worker_main` from the top of its loop. -/
theorem run_iteration (s : State) (d : Mem × Nat × Nat) (hw : s.worker = .ready)
    (hd : 1 ≤ d.2.2) :
    run s (iteration d)
      = if RING_BUFFER_SLOTS ≤ s.sem + d.2.2 then
          { s with
            ring := worker_copy s.ring d.1 d.2.1 d.2.2,
            hist := s.hist.copy d.1 d.2.1 d.2.2,
            sem := s.sem + d.2.2,
            worker := .exited .overrun, terminate := true }
        else
          loopCond { s with
            ring := worker_copy s.ring d.1 d.2.1 d.2.2,
            hist := s.hist.copy d.1 d.2.1 d.2.2,
            sem := s.sem + d.2.2,
            worker := .posting d.2.2 d.2.2,
            transfer_count := s.transfer_count + d.2.2 } := by
  have hn : d.2.2 ≠ 0 := by omega
  have e1 : run s [Event.poll d.1 d.2.1 d.2.2 0]
      = { s with
          ring := worker_copy s.ring d.1 d.2.1 d.2.2,
          worker := .posting d.2.2 0,
          hist := s.hist.copy d.1 d.2.1 d.2.2 } := by
    rw [run_cons, run_nil, step_poll_data s d.1 d.2.1 d.2.2 0 hw hn]
  unfold iteration
  rw [run_append, run_append, e1, run_posts d.2.2 _ d.2.2 0 rfl (by omega), run_cons, run_nil]
  simp only [step, Nat.zero_add, lt_irrefl, if_false]

theorem delivered_mono (ds : Nat → Mem × Nat × Nat) (m n : Nat) (h : m ≤ n) :
    delivered ds m ≤ delivered ds n := by
  induction n with
  | zero =>
    have : m = 0 := by omega
    subst this
    exact le_refl _
  | succ n ih =>
    by_cases hm : m = n + 1
    · subst hm
      exact le_refl _
    · have := ih (by omega)
      simp only [delivered]
      omega

theorem delivered_ge (ds : Nat → Mem × Nat × Nat) (hne : ∀ i, 1 ≤ (ds i).2.2) (n : Nat) :
    n ≤ delivered ds n := by
  induction n with
  | zero => exact le_refl _
  | succ n ih =>
    have := hne n
    simp only [delivered]
    omega

/-- While fewer than `RING_BUFFER_SLOTS` slots are delivered and none is drained,
`worker_main` is back at the top of its loop with every slot posted. -/
theorem run_deliveries_below (counts0 : Nat → Int) (ds : Nat → Mem × Nat × Nat)
    (hne : ∀ i, 1 ≤ (ds i).2.2) (m : Nat) (hm : delivered ds m < RING_BUFFER_SLOTS) :
    (run (init counts0) (deliveries ds m)).worker = .ready ∧
    (run (init counts0) (deliveries ds m)).terminate = false ∧
    (run (init counts0) (deliveries ds m)).sem = delivered ds m ∧
    (run (init counts0) (deliveries ds m)).transfer_count = delivered ds m ∧
    (run (init counts0) (deliveries ds m)).hist.copied = delivered ds m := by
  induction m with
  | zero => exact ⟨rfl, rfl, rfl, rfl, rfl⟩
  | succ m ih =>
    have hm1 : delivered ds m < RING_BUFFER_SLOTS := by
      simp only [delivered] at hm
      omega
    obtain ⟨h1, h2, h3, h4, h5⟩ := ih hm1
    simp only [deliveries]
    rw [run_append, run_iteration _ (ds m) h1 (hne m)]
    simp only [delivered] at hm ⊢
    have hlt : ¬ RING_BUFFER_SLOTS ≤ (run (init counts0) (deliveries ds m)).sem + (ds m).2.2 := by
      omega
    rw [if_neg hlt]
    simp only [loopCond, h4, number_of_dma_transfers_eq]
    simp only [RING_BUFFER_SLOTS] at hm
    have hlt2 : delivered ds m + (ds m).2.2 < 520 := by omega
    rw [if_pos hlt2]
    refine ⟨rfl, h2, ?_, ?_, ?_⟩
    · simp only [h3]
    · simp only [h4]
    · simp only [History.copy, h5]

theorem step_worker_idle (s : State) (e : Event) (why : Exit) (h : s.worker = .exited why)
    (he : e.isWorker = true) : step s e = s := by
  cases e with
  | poll dev first_slot num_slots irq => simp [step, h]
  | post => simp [step, h]
  | check => simp [step, h]
  | loopTest => simp [Event.isWorker] at he
  | wake => simp [Event.isWorker] at he
  | drain => simp [Event.isWorker] at he
  | abort => simp [Event.isWorker] at he
  | release => simp [Event.isWorker] at he

theorem run_worker_idle (s : State) (evs : List Event) (why : Exit)
    (h : s.worker = .exited why) (he : ∀ e, e ∈ evs → e.isWorker = true) : run s evs = s := by
  induction evs with
  | nil => rfl
  | cons e es ih =>
    rw [run_cons, step_worker_idle s e why h (he e (List.mem_cons_self _ _))]
    exact ih (fun e1 h1 => he e1 (List.mem_cons_of_mem _ h1))

/-- C4: when the logging thread never runs, for every stream of deliveries of at least
one slot each there is an iteration `n`, one of the first `RING_BUFFER_SLOTS`, such
that before it fewer than `RING_BUFFER_SLOTS` slots are posted and `worker_main` is
still in its loop with the termination flag clear, and at its end at least
`RING_BUFFER_SLOTS` slots are posted, `worker_main` has left its loop by the overrun
test and set the termination flag; after that no action of `worker_main` changes the
state: there is no further copy and no further post. -/
theorem worker_stops_at_overrun (counts0 : Nat → Int) (ds : Nat → Mem × Nat × Nat)
    (hne : ∀ i, 1 ≤ (ds i).2.2) :
    ∃ n, 1 ≤ n ∧ n ≤ RING_BUFFER_SLOTS ∧
      (∀ m, m < n → delivered ds m < RING_BUFFER_SLOTS ∧
        (run (init counts0) (deliveries ds m)).worker = .ready ∧
        (run (init counts0) (deliveries ds m)).terminate = false) ∧
      RING_BUFFER_SLOTS ≤ delivered ds n ∧
      (run (init counts0) (deliveries ds n)).worker = .exited .overrun ∧
      (run (init counts0) (deliveries ds n)).terminate = true ∧
      (run (init counts0) (deliveries ds n)).sem = delivered ds n ∧
      (run (init counts0) (deliveries ds n)).hist.copied = delivered ds n ∧
      ∀ evs, (∀ e, e ∈ evs → e.isWorker = true) →
        run (run (init counts0) (deliveries ds n)) evs
          = run (init counts0) (deliveries ds n) := by
  have hex : ∃ n, RING_BUFFER_SLOTS ≤ delivered ds n :=
    ⟨RING_BUFFER_SLOTS, delivered_ge ds hne RING_BUFFER_SLOTS⟩
  classical
  have hfind := Nat.find_spec hex
  have hmin : ∀ m, m < Nat.find hex → delivered ds m < RING_BUFFER_SLOTS := by
    intro m hm
    have := Nat.find_min hex hm
    omega
  have hle : Nat.find hex ≤ RING_BUFFER_SLOTS :=
    Nat.find_min' hex (delivered_ge ds hne RING_BUFFER_SLOTS)
  have hpos : 1 ≤ Nat.find hex := by
    rcases Nat.eq_zero_or_pos (Nat.find hex) with h0 | h0
    · rw [h0] at hfind
      simp [delivered, RING_BUFFER_SLOTS] at hfind
    · exact h0
  obtain ⟨p, hp⟩ : ∃ p, Nat.find hex = p + 1 := ⟨Nat.find hex - 1, by omega⟩
  rw [hp] at hfind hmin hle hpos
  obtain ⟨h1, h2, h3, h4, h5⟩ := run_deliveries_below counts0 ds hne p (hmin p (by omega))
  have hrun : run (init counts0) (deliveries ds (p + 1))
      = { (run (init counts0) (deliveries ds p)) with
          ring := worker_copy (run (init counts0) (deliveries ds p)).ring
            (ds p).1 (ds p).2.1 (ds p).2.2,
          hist := (run (init counts0) (deliveries ds p)).hist.copy
            (ds p).1 (ds p).2.1 (ds p).2.2,
          sem := (run (init counts0) (deliveries ds p)).sem + (ds p).2.2,
          worker := .exited .overrun, terminate := true } := by
    simp only [deliveries]
    rw [run_append, run_iteration _ (ds p) h1 (hne p)]
    simp only [delivered] at hfind
    rw [if_pos (by omega)]
  refine ⟨p + 1, hpos, hle, ?_, hfind, ?_, ?_, ?_, ?_, ?_⟩
  · intro m hm
    obtain ⟨g1, g2, _, _, _⟩ := run_deliveries_below counts0 ds hne m (hmin m hm)
    exact ⟨hmin m hm, g1, g2⟩
  · rw [hrun]
  · rw [hrun]
  · rw [hrun]
    simp only [delivered, h3]
  · rw [hrun]
    simp only [delivered, History.copy, h5]
  · intro evs hev
    exact run_worker_idle _ evs .overrun (by rw [hrun]) hev

/-- A stream at which `worker_stops_at_overrun` applies: one slot per delivery. -/
theorem worker_stops_at_overrun_witness :
    (∀ i : Nat, 1 ≤ ((fun i => (devA, i % RING_BUFFER_SLOTS, 1)) i : Mem × Nat × Nat).2.2) ∧
    ∃ n, 1 ≤ n ∧ n ≤ RING_BUFFER_SLOTS ∧
      (run (init (fun _ => 0))
        (deliveries (fun i => (devA, i % RING_BUFFER_SLOTS, 1)) n)).terminate = true :=
  ⟨fun _ => le_refl 1,
    match worker_stops_at_overrun (fun _ => 0) (fun i => (devA, i % RING_BUFFER_SLOTS, 1))
      (fun _ => le_refl 1) with
    | ⟨n, h1, h2, _, _, _, h3, _⟩ => ⟨n, h1, h2, h3⟩⟩

/-! ### Normal completion -/

/-- The loop of `worker_main` is left by its loop condition only when
`transfer_count` has reached `NUMBER_OF_DMA_TRANSFERS`. -/
theorem complete_step (s : State) (e : Event)
    (h : s.worker = .exited .complete → NUMBER_OF_DMA_TRANSFERS ≤ s.transfer_count) :
    (step s e).worker = .exited .complete →
      NUMBER_OF_DMA_TRANSFERS ≤ (step s e).transfer_count := by
  cases e with
  | poll dev first_slot num_slots irq =>
    cases hw : s.worker with
    | ready =>
      simp only [step, hw, loopCond]
      split_ifs <;> intro h1 <;> simp at h1 ⊢
      omega
    | posting n i => simp [step, hw]
    | exited why =>
      simp only [step, hw]
      intro h1
      exact h (hw.trans h1)
  | post =>
    cases hw : s.worker with
    | posting n i =>
      simp only [step, hw]
      split_ifs <;> simp [hw]
    | ready => simp [step, hw]
    | exited why =>
      simp only [step, hw]
      intro h1
      exact h (hw.trans h1)
  | check =>
    cases hw : s.worker with
    | posting n i =>
      simp only [step, hw, loopCond]
      split_ifs <;> intro h1 <;> simp [hw] at h1 ⊢
      omega
    | ready => simp [step, hw]
    | exited why =>
      simp only [step, hw]
      intro h1
      exact h (hw.trans h1)
  | loopTest =>
    simp only [step]
    split <;> [split_ifs <;> exact h; exact h]
  | wake =>
    simp only [step]
    split <;> [split_ifs <;> exact h; exact h]
  | drain =>
    simp only [step]
    split <;> exact h
  | abort => exact h
  | release => exact h

theorem complete_run (s : State) (evs : List Event)
    (h : s.worker = .exited .complete → NUMBER_OF_DMA_TRANSFERS ≤ s.transfer_count) :
    (run s evs).worker = .exited .complete →
      NUMBER_OF_DMA_TRANSFERS ≤ (run s evs).transfer_count := by
  induction evs generalizing s with
  | nil => exact h
  | cons e es ih => exact ih _ (complete_step s e h)

/-- C10, amended: when the loop of `worker_main` ends by its loop condition, the
accumulated `transfer_count` is at least `NUMBER_OF_DMA_TRANSFERS`, the quotient of
`AMOUNT_OF_DATA_TO_LOG` by `SAMPLES_PER_TRANSFER` rounded down (520); so
`transfer_count * SAMPLES_PER_TRANSFER` is at least 1996800, and less than one
transfer short of `AMOUNT_OF_DATA_TO_LOG`. -/
theorem completion_reaches_whole_transfers (counts0 : Nat → Int) (evs : List Event)
    (hdone : (run (init counts0) evs).worker = .exited .complete) :
    NUMBER_OF_DMA_TRANSFERS ≤ (run (init counts0) evs).transfer_count ∧
    NUMBER_OF_DMA_TRANSFERS = AMOUNT_OF_DATA_TO_LOG / SAMPLES_PER_TRANSFER ∧
    NUMBER_OF_DMA_TRANSFERS * SAMPLES_PER_TRANSFER = 1996800 ∧
    1996800 ≤ (run (init counts0) evs).transfer_count * SAMPLES_PER_TRANSFER ∧
    AMOUNT_OF_DATA_TO_LOG
      < (run (init counts0) evs).transfer_count * SAMPLES_PER_TRANSFER + SAMPLES_PER_TRANSFER := by
  have h := complete_run (init counts0) evs (by simp [init]) hdone
  rw [number_of_dma_transfers_eq] at h
  refine ⟨by rw [number_of_dma_transfers_eq]; exact h, rfl, by decide, ?_, ?_⟩
  · simp only [SAMPLES_PER_TRANSFER]
    omega
  · simp only [SAMPLES_PER_TRANSFER, AMOUNT_OF_DATA_TO_LOG, SECONDS_TO_LOG, SAMPLE_RATE]
    omega

/-- One round of `oneSlotRun` before the last. -/
theorem steady_round (k j : Nat) (s : State) (h : Steady k s)
    (hk : k + 1 < NUMBER_OF_DMA_TRANSFERS) : Steady (k + 1) (run s (oneSlotRound j)) := by
  obtain ⟨h1, h2, h3, h4, h5⟩ := h
  rw [number_of_dma_transfers_eq] at hk
  simp [oneSlotRound, run_cons, run_nil, step, loopCond, h1, h2, h3, h4, h5, Steady,
    RING_BUFFER_SLOTS, number_of_dma_transfers_eq, hk]

theorem steady_run (counts0 : Nat → Int) (n : Nat) (hn : n < NUMBER_OF_DMA_TRANSFERS) :
    Steady n (run (init counts0) (oneSlotRun n)) := by
  induction n with
  | zero => exact ⟨rfl, rfl, rfl, rfl, rfl⟩
  | succ n ih =>
    simp only [oneSlotRun]
    rw [run_append]
    exact steady_round n n _ (ih (by omega)) hn

/-- The last round of `oneSlotRun NUMBER_OF_DMA_TRANSFERS`. -/
theorem steady_last (j : Nat) (s : State) (h : Steady 519 s) :
    (run s (oneSlotRound j)).worker = .exited .complete ∧
      (run s (oneSlotRound j)).transfer_count = 520 := by
  obtain ⟨h1, h2, h3, h4, h5⟩ := h
  simp [oneSlotRound, run_cons, run_nil, step, loopCond, h1, h2, h3, h4, h5,
    RING_BUFFER_SLOTS, number_of_dma_transfers_eq]

/-- After 520 rounds of one slot each, the loop of `worker_main` has ended by its loop
condition. -/
theorem oneSlotRun_complete (counts0 : Nat → Int) :
    (run (init counts0) (oneSlotRun 520)).worker = .exited .complete ∧
      (run (init counts0) (oneSlotRun 520)).transfer_count = 520 := by
  have h := steady_run counts0 519 (by rw [number_of_dma_transfers_eq]; omega)
  have h2 := steady_last 519 _ h
  simpa only [oneSlotRun, run_append] using h2

/-- C10 as stated fails: with one slot per delivery and every slot drained at once,
the loop of `worker_main` ends by its loop condition after 520 transfers, and
520 * `SAMPLES_PER_TRANSFER` = 1996800 samples is less than
`AMOUNT_OF_DATA_TO_LOG` = 2000000. -/
theorem completion_short_of_amount :
    (run (init (fun _ => 0)) (oneSlotRun 520)).worker = .exited .complete ∧
    (run (init (fun _ => 0)) (oneSlotRun 520)).transfer_count * SAMPLES_PER_TRANSFER = 1996800 ∧
    AMOUNT_OF_DATA_TO_LOG = 2000000 ∧
    ¬ (AMOUNT_OF_DATA_TO_LOG
        ≤ (run (init (fun _ => 0)) (oneSlotRun 520)).transfer_count * SAMPLES_PER_TRANSFER) := by
  obtain ⟨h1, h2⟩ := oneSlotRun_complete (fun _ => 0)
  refine ⟨h1, by rw [h2]; decide, by decide, ?_⟩
  rw [h2]
  decide

/-- The run `oneSlotRun 520`, at which `completion_reaches_whole_transfers` applies. -/
theorem completion_reaches_whole_transfers_witness :
    (run (init (fun _ => 0)) (oneSlotRun 520)).worker = .exited .complete ∧
    NUMBER_OF_DMA_TRANSFERS ≤ (run (init (fun _ => 0)) (oneSlotRun 520)).transfer_count :=
  ⟨(oneSlotRun_complete (fun _ => 0)).1,
    (completion_reaches_whole_transfers (fun _ => 0) (oneSlotRun 520)
      (oneSlotRun_complete (fun _ => 0)).1).1⟩

end ApciDma
